import Mathlib

/-!
Verification of the connection-pool coordination core of ZODB/ZEO
(`src/ZODB/DB.py`), as a shallow embedding in Lean 4.

Modelling conventions:

- A connection is reduced to the two pieces of data the pool code reads:
  an identity and the cache warmth counter
  `c._cache.cache_non_ghost_count`.  Cache activity while a connection
  is checked out or idle is outside the modelled operations, so the
  warmth of a connection is a fixed field.
- Wall-clock times (`time.time()` results and timeouts) are modelled as
  integers; the code only compares and subtracts them.
- The weak set `self.all` (a `transaction.weakset.WeakSet`) is modelled
  as a duplicate-free list of connections.  Garbage-collection driven
  disappearance of weak entries is not an operation of any claim and is
  not modelled.
- Python exceptions (the `IndexError` raised by `available.pop(0)` on an
  empty list, and failing `assert` statements) are modelled by `Option`:
  `none` means the Python call raised.
- 8-byte transaction ids / snapshot keys are modelled as natural
  numbers; byte-wise lexicographic comparison of the 8-byte strings is
  exactly numeric comparison of the corresponding numbers, and `repr`
  of a timestamp (its 8 raw bytes) is the identity in this model.
-/

/-- The fragment of a `ZODB.Connection.Connection` that the pool code in
`DB.py` inspects: an identity and the cache warmth counter
`c._cache.cache_non_ghost_count`. -/
structure Conn where
  id : Nat
  ngc : Nat
deriving DecidableEq

/-- The two log severities used by `ConnectionPool.push`
(`logger.warn` and `logger.critical`). -/
inductive LogLevel where
  | warn
  | critical
deriving DecidableEq

/-- State of a `ConnectionPool` (also the per-key sub-pool state of a
`KeyedConnectionPool`): the size target `self._size`, the idle timeout
`self._timeout`, the weak set `self.all`, and the stack
`self.available` of `(enqueue time, connection)` pairs. -/
structure PoolState where
  size : Int
  timeout : Int
  all : List Conn
  available : List (Int × Conn)
deriving DecidableEq

/-- The connections currently held in an `available` stack
(second components of the idle entries). -/
def availConns (avail : List (Int × Conn)) : List Conn :=
  avail.map Prod.snd

namespace ConnectionPool

/-- `ConnectionPool.__init__(size, timeout)`:
empty `all`, empty `available`. -/
def init (size timeout : Int) : PoolState :=
  { size := size, timeout := timeout, all := [], available := [] }

/-- The comparison `entry[1]._cache.cache_non_ghost_count > cactive`
used by `ConnectionPool._append` while scanning backward. -/
def warmer (c : Conn) (e : Int × Conn) : Bool :=
  decide (c.ngc < e.2.ngc)

/-- `ConnectionPool._append(c)`.  The Python code appends
`(time.time(), c)` unless the last entry is warmer than `c`, in which
case it scans backward over the contiguous warmer-than-`c` suffix and
inserts just before it.  Splitting the reversed list with
`takeWhile`/`dropWhile` at the warmer-than-`c` test computes exactly
that insertion point: when the last entry is not warmer the taken part
is empty and the result is a plain append. -/
def appendConn (now : Int) (c : Conn) (avail : List (Int × Conn)) :
    List (Int × Conn) :=
  let r := avail.reverse
  (r.dropWhile (warmer c)).reverse ++ (now, c) :: (r.takeWhile (warmer c)).reverse

/-- The `while` loop of `ConnectionPool._reduce_size`: pop the front
entry while `len(available) > target` or the front entry is older than
`threshhold`, removing each popped connection from `all` and recording
it as released (`c._release_resources()` was called on it).  With an
empty list the Python condition `len(available) > target` can still be
true (for a negative `target`), and `available.pop(0)` then raises
`IndexError`: that is the `none` result. -/
def reduceLoop (threshhold target : Int) :
    List (Int × Conn) → List Conn → List Conn →
    Option (List (Int × Conn) × List Conn × List Conn)
  | [], all, released =>
      if 0 > target then none else some ([], all, released)
  | e :: rest, all, released =>
      if ((e :: rest).length : Int) > target ∨ e.1 < threshhold then
        reduceLoop threshhold target rest (all.erase e.2) (released ++ [e.2])
      else
        some (e :: rest, all, released)

/-- `ConnectionPool._reduce_size(strictly_less)`: `threshhold` is
`time.time() - self.timeout`, `target` is `self.size`, minus one when
`strictly_less`.  Returns the new state and the list of released
connections, or `none` when the loop raised. -/
def reduceSize (now : Int) (strictlyLess : Bool) (st : PoolState) :
    Option (PoolState × List Conn) :=
  let threshhold := now - st.timeout
  let target := if strictlyLess then st.size - 1 else st.size
  match reduceLoop threshhold target st.available st.all [] with
  | none => none
  | some (avail, all, released) =>
      some ({ st with available := avail, all := all }, released)

/-- `ConnectionPool.push(c)`:
`assert c not in self.all` (the second assert, `c not in
self.available`, compares the connection against `(time, connection)`
pairs and can never fire); `_reduce_size(strictly_less=True)`;
`self.all.add(c)`; `self._append(c)`; then one log message chosen from
`len(self.all)` against `self.size`.  `none` means the call raised. -/
def push (now : Int) (c : Conn) (st : PoolState) :
    Option (PoolState × Option LogLevel) :=
  if c ∈ st.all then none
  else
    match reduceSize now true st with
    | none => none
    | some (st1, _) =>
        let all2 := st1.all ++ [c]
        let avail2 := appendConn now c st1.available
        let n : Int := all2.length
        let log :=
          if n > st.size then
            some (if n > 2 * st.size then LogLevel.critical else LogLevel.warn)
          else none
        some ({ st1 with all := all2, available := avail2 }, log)

/-- `ConnectionPool.repush(c)`:
`assert c in self.all` (again, the `available` assert can never fire);
`_reduce_size(strictly_less=True)`; `self._append(c)`. -/
def repush (now : Int) (c : Conn) (st : PoolState) : Option PoolState :=
  if c ∈ st.all then
    match reduceSize now true st with
    | none => none
    | some (st1, _) =>
        some { st1 with available := appendConn now c st1.available }
  else none

/-- `ConnectionPool.pop()`: pop the top of `available` (or return
`None` when it is empty), leaving the connection in `all`;
`assert result in self.all` is the `none` case. -/
def pop (st : PoolState) : Option (Option Conn × PoolState) :=
  match st.available.getLast? with
  | none => some (none, st)
  | some e =>
      if e.2 ∈ st.all then
        some (some e.2, { st with available := st.available.dropLast })
      else none

/-- `ConnectionPool.availableGC()`: every idle entry older than
`time.time() - self.timeout` is collected into `to_remove`, removed
from `all` and released; the survivors only get a `cacheGC()` (a no-op
on the modelled state).  When `to_remove` is non-empty, `available` is
rebuilt keeping the entries whose connection is not in `to_remove`.
Returns the new state and the released connections. -/
def availableGC (now : Int) (st : PoolState) : PoolState × List Conn :=
  let threshhold := now - st.timeout
  let toRemove := availConns (st.available.filter fun e => decide (e.1 < threshhold))
  let all := toRemove.foldl (fun a c => a.erase c) st.all
  let avail :=
    if toRemove = [] then st.available
    else st.available.filter fun e => decide (e.2 ∉ toRemove)
  ({ st with all := all, available := avail }, toRemove)

/-- `AbstractConnectionPool.setTimeout(timeout)`: store the new
timeout, and run `_reduce_size()` (with the new timeout) when it
shrank. -/
def setTimeout (now t : Int) (st : PoolState) :
    Option (PoolState × List Conn) :=
  let old := st.timeout
  let st1 := { st with timeout := t }
  if t < old then reduceSize now false st1 else some (st1, [])

end ConnectionPool

/-- State of a `KeyedConnectionPool`: the family size and timeout and
the dictionary `self.pools` mapping snapshot keys to sub-pool states,
modelled as an association list. -/
structure KeyedPoolState where
  size : Int
  timeout : Int
  pools : List (Nat × PoolState)
deriving DecidableEq

namespace KeyedConnectionPool

/-- `KeyedConnectionPool.__init__(size, timeout)`: no sub-pools. -/
def init (size timeout : Int) : KeyedPoolState :=
  { size := size, timeout := timeout, pools := [] }

/-- `self.pools[key] = p`: replace the binding for `key`, or add it
when absent (a Python dict assignment). -/
def setPool (key : Nat) (p : PoolState) :
    List (Nat × PoolState) → List (Nat × PoolState)
  | [] => [(key, p)]
  | (k, q) :: rest =>
      if k = key then (key, p) :: rest else (k, q) :: setPool key p rest

/-- `KeyedConnectionPool.push(c, key)`: `self.pools.get(key)`, lazily
creating `ConnectionPool(self.size, self.timeout)` for a new key, then
`pool.push(c)`. -/
def push (now : Int) (c : Conn) (key : Nat) (st : KeyedPoolState) :
    Option (KeyedPoolState × Option LogLevel) :=
  let pool :=
    match st.pools.lookup key with
    | none => ConnectionPool.init st.size st.timeout
    | some p => p
  match ConnectionPool.push now c pool with
  | none => none
  | some (p2, log) => some ({ st with pools := setPool key p2 st.pools }, log)

/-- `KeyedConnectionPool.pop(key)`: `self.pools.get(key)`; when no
sub-pool exists for `key` the method implicitly returns `None` without
touching `self.pools`; otherwise it delegates to `pool.pop()`. -/
def pop (key : Nat) (st : KeyedPoolState) :
    Option (Option Conn × KeyedPoolState) :=
  match st.pools.lookup key with
  | none => some (none, st)
  | some p =>
      match ConnectionPool.pop p with
      | none => none
      | some (r, p2) => some (r, { st with pools := setPool key p2 st.pools })

end KeyedConnectionPool

/-- The slice of `DB` state needed by `_connectionMap`-based
broadcasts: the live pool `self.pool` and the historical keyed pool
`self.historical_pool`. -/
structure DBState where
  pool : PoolState
  historical_pool : KeyedPoolState

namespace DB

/-- The connections visited by `DB._connectionMap(f)`:
`self.pool.map(f)` walks the live pool weak set, then
`self.historical_pool.map(f)` walks every sub-pool weak set. -/
def connectionMapList (st : DBState) : List Conn :=
  st.pool.all ++ (st.historical_pool.pools.map fun kp => kp.2.all).flatten

/-- `DB.invalidate(tid, oids, connection)`: via `_connectionMap`, call
`c.invalidate(tid, oids)` on every tracked connection `c` that is not
the committing `connection`.  The result is the list of delivered
`invalidate` calls, in visit order. -/
def invalidate (tid : Nat) (oids : Finset Nat) (connection : Option Conn)
    (st : DBState) : List (Conn × Nat × Finset Nat) :=
  (connectionMapList st).filterMap fun c =>
    if some c = connection then none else some (c, tid, oids)

end DB

/-- An `at` or `before` argument of `DB.open` / `getTID`: either a
`datetime.datetime` or a raw 8-byte transaction id.  Each carries the
raw 8-byte timestamp value (as a natural number) it denotes:
for a datetime this is the result of `toTimeStamp` (the UTC
conversion) and for a raw tid the result of the `TimeStamp`
constructor, both external to this repository. -/
inductive TimeVal where
  | dt (ts : Nat)
  | raw (ts : Nat)
deriving DecidableEq

/-- The raw timestamp denoted by an argument: the branch
`at = toTimeStamp(at)` for datetimes, `at = TimeStamp(at)` for raw
8-byte ids (and likewise for `before`). -/
def toTS : TimeVal → Nat
  | TimeVal.dt ts => ts
  | TimeVal.raw ts => ts

namespace TimeStamp

/-- Modelled from the spec: `persistent.TimeStamp.laterThan` is
external to this repository; per the spec (section 4.5) the
normalization takes the smallest logical timestamp strictly later
than the argument, so `laterThan` returns `self` when it is already
strictly later than `other`, and the successor of `other` otherwise.
Serialization (`repr`) of the 8 raw bytes is the identity on the
numeric model. -/
def laterThan (self other : Nat) : Nat :=
  if other < self then self else other + 1

end TimeStamp

/-- `getTID(at, before)`: normalize the two optional arguments to one
optional `before` snapshot key.  With `at` given, `before` must be
absent (else `ValueError`) and the result is
`repr(at.laterThan(at))`; with only `before` given, the result is its
timestamp serialized directly; with neither, `None`. -/
def getTID (a b : Option TimeVal) : Except String (Option Nat) :=
  match a with
  | some av =>
      match b with
      | some _ =>
          Except.error "can only pass zero or one of `at` and `before`"
      | none =>
          Except.ok (some (TimeStamp.laterThan (toTS av) (toTS av)))
  | none =>
      match b with
      | some bv => Except.ok (some (toTS bv))
      | none => Except.ok none

namespace DB

/-- The guard at the top of `DB.open`: normalize `at`/`before` with
`getTID`, then raise `ValueError` when the normalized key is both
greater than `self.lastTransaction()` and greater than
`getTID(self.lastTransaction(), None)`.  On success, return the
normalized key.  (The comparison against a `getTID` failure value
cannot occur: `getTID(tid, None)` always succeeds; Python 2 would
compare the string as greater than `None`.) -/
def openBeforeCheck (a b : Option TimeVal) (lastTransaction : Nat) :
    Except String (Option Nat) :=
  match getTID a b with
  | Except.error e => Except.error e
  | Except.ok before =>
      match before with
      | none => Except.ok none
      | some bv =>
          if decide (bv > lastTransaction) &&
             (match getTID (some (TimeVal.raw lastTransaction)) none with
              | Except.ok (some g) => decide (bv > g)
              | _ => true) then
            Except.error "cannot open an historical connection in the future."
          else Except.ok (some bv)

end DB

namespace TransactionalUndo

/-- `TransactionalUndo.commit(transaction)`: for each tid in
`self._tids`, in order, call `self._storage.undo(tid, transaction)`;
when the result is not `None`, merge its oid list `result[1]` into
`self._oids`.  The storage is modelled as the function `undo` from a
tid to the optional `(serial, oids)` result.  Returns the final
`_oids` set together with the trace of tids passed to
`storage.undo`, in call order. -/
def commit (undo : Nat → Option (Nat × List Nat)) :
    List Nat → Finset Nat → Finset Nat × List Nat
  | [], oids => (oids, [])
  | tid :: rest, oids =>
      let oids2 :=
        match undo tid with
        | some result => oids ∪ result.2.toFinset
        | none => oids
      let r := commit undo rest oids2
      (r.1, tid :: r.2)

/-- `TransactionalUndo.tpc_vote(transaction)`: for each `(oid, _)` in
`self._storage.tpc_vote(transaction) or ()`, add `oid` to
`self._oids`. -/
def tpcVote (vote : Option (List (Nat × Nat))) (oids : Finset Nat) :
    Finset Nat :=
  (vote.getD []).foldl (fun s p => insert p.1 s) oids

/-- `TransactionalUndo.tpc_finish(transaction)`: the storage is handed
the callback `lambda tid: self._db.invalidate(tid, self._oids)`; this
is the list of `invalidate` calls that callback delivers when the
storage invokes it with the assigned tid (no committing connection is
excluded). -/
def tpcFinishCalls (st : DBState) (assignedTid : Nat) (oids : Finset Nat) :
    List (Conn × Nat × Finset Nat) :=
  DB.invalidate assignedTid oids none st

end TransactionalUndo

/-- The slice of a storage that the undo entry points of `DB` read:
the optional `supportsUndo` attribute (absent, or present and
returning the carried boolean), and the results the storage would
return from `undoLog` and `undoInfo`. -/
structure StorageU where
  supportsUndoF : Option Bool
  undoLogR : List Nat
  undoInfoR : List Nat
deriving DecidableEq

namespace DB

/-- `DB.supportsUndo()`: reading `self.storage.supportsUndo` returns
`False` on `AttributeError`, otherwise the attribute is called. -/
def supportsUndo (s : StorageU) : Bool :=
  match s.supportsUndoF with
  | none => false
  | some b => b

/-- `DB.undoLog(*args, **kw)`: the empty tuple when the storage does
not support undo, else delegate to `self.storage.undoLog`. -/
def undoLog (s : StorageU) : List Nat :=
  if supportsUndo s then s.undoLogR else []

/-- `DB.undoInfo(*args, **kw)`: the empty tuple when the storage does
not support undo, else delegate to `self.storage.undoInfo`. -/
def undoInfo (s : StorageU) : List Nat :=
  if supportsUndo s then s.undoInfoR else []

/-- `DB.undoMultiple(ids, txn)`: raise `NotImplementedError` when the
storage does not support undo, else join a
`TransactionalUndo(self, ids)` to the transaction; the joined
resource is represented by its tid list. -/
def undoMultiple (s : StorageU) (ids : List Nat) : Except Unit (List Nat) :=
  if supportsUndo s then Except.ok ids else Except.error ()

/-- `DB.undo(id, txn)`: `self.undoMultiple([id], txn)`. -/
def undo (s : StorageU) (i : Nat) : Except Unit (List Nat) :=
  undoMultiple s [i]

end DB

namespace ConnectionPool

/-- The warmth comparison under which an `available` stack stays
sorted: earlier entries are at most as warm as later ones. -/
def warmthLe (a b : Int × Conn) : Prop :=
  a.2.ngc ≤ b.2.ngc

end ConnectionPool

/-- Well-formedness of a pool state: the weak set holds each
connection once, the idle stack holds each connection at most once,
and every idle connection is tracked in the weak set. -/
def PoolWF (st : PoolState) : Prop :=
  st.all.Nodup ∧ (availConns st.available).Nodup ∧
    ∀ c ∈ availConns st.available, c ∈ st.all

instance (st : PoolState) : Decidable (PoolWF st) := by
  unfold PoolWF
  infer_instance

/-- Warmth-sortedness of the idle stack: entries are non-decreasing in
`cache_non_ghost_count` from front to top. -/
def WarmSorted (st : PoolState) : Prop :=
  st.available.Pairwise ConnectionPool.warmthLe

/-- Pool states reachable from a freshly constructed `ConnectionPool`
by the public operations, each applied when it does not raise, with
the documented preconditions of `push` and `repush` (the connection is
not currently in `available`; the `assert` statements enforce the
`all`-membership halves). -/
inductive Reachable : PoolState → Prop
  | init (size timeout : Int) : Reachable (ConnectionPool.init size timeout)
  | push (now : Int) (c : Conn) (st st2 : PoolState) (log : Option LogLevel) :
      Reachable st → c ∉ availConns st.available →
      ConnectionPool.push now c st = some (st2, log) → Reachable st2
  | repush (now : Int) (c : Conn) (st st2 : PoolState) :
      Reachable st → c ∉ availConns st.available →
      ConnectionPool.repush now c st = some st2 → Reachable st2
  | pop (st st2 : PoolState) (r : Option Conn) :
      Reachable st → ConnectionPool.pop st = some (r, st2) → Reachable st2
  | reduce (now : Int) (st st2 : PoolState) (rel : List Conn) :
      Reachable st → ConnectionPool.reduceSize now false st = some (st2, rel) →
      Reachable st2
  | gc (now : Int) (st : PoolState) :
      Reachable st → Reachable (ConnectionPool.availableGC now st).1

/-- Pool state after pushing a connection of warmth 100 at time 5 into
a fresh pool with size target 5 and timeout 100. -/
def warmPoolA : PoolState :=
  { size := 5, timeout := 100, all := [⟨1, 100⟩],
    available := [(5, ⟨1, 100⟩)] }

/-- Pool state after additionally pushing a connection of warmth 50 at
time 10: the colder entry is inserted in front of the warmer one by
`_append`. -/
def warmPoolB : PoolState :=
  { size := 5, timeout := 100, all := [⟨1, 100⟩, ⟨2, 50⟩],
    available := [(10, ⟨2, 50⟩), (5, ⟨1, 100⟩)] }

/-- A one-entry pool used to exercise timeout reaping. -/
def reapPool : PoolState :=
  { size := 5, timeout := 100, all := [⟨3, 0⟩], available := [(0, ⟨3, 0⟩)] }

/-- Connections for the capacity-warning scenario. -/
def capConn (n : Nat) : Conn :=
  ⟨n, 0⟩

/-- States of the capacity-warning scenario with pool_size 2 and the
default timeout `1 << 31`. -/
def capPool (all : List Conn) (avail : List (Int × Conn)) : PoolState :=
  { size := 2, timeout := 2 ^ 31, all := all, available := avail }

/-- A database with three live connections and no historical pools,
used by the invalidation fan-out scenario. -/
def fanDB : DBState :=
  { pool := { size := 3, timeout := 300,
              all := [⟨1, 0⟩, ⟨2, 0⟩, ⟨3, 0⟩], available := [] },
    historical_pool := KeyedConnectionPool.init 3 300 }

/-- The state of `reapPool` after its one stale entry is reaped by a
timeout shrunk to 50. -/
def reapedPool : PoolState :=
  { size := 5, timeout := 50, all := [], available := [] }

/-! Helper lemmas about the list operations used by the pool model. -/

theorem head_dropWhile_false {α : Type} (p : α → Bool) :
    ∀ (l : List α) (x : α), (l.dropWhile p).head? = some x → p x = false := by
  intro l
  induction l with
  | nil => intro x h; simp [List.dropWhile] at h
  | cons a t ih =>
      intro x h
      rw [List.dropWhile_cons] at h
      by_cases hp : p a
      · exact ih x (by simpa [hp] using h)
      · simp [hp] at h
        exact Bool.eq_false_iff.mpr (h ▸ hp)

theorem mem_foldl_erase {rm : List Conn} :
    ∀ {all : List Conn} {c : Conn}, c ∈ all → c ∉ rm →
      c ∈ rm.foldl (fun a d => a.erase d) all := by
  induction rm with
  | nil => intro all c h _; simpa using h
  | cons d t ih =>
      intro all c h hn
      simp only [List.foldl_cons]
      exact ih ((List.mem_erase_of_ne (by simp at hn; exact hn.1)).mpr h)
        (by simp at hn; exact hn.2)

theorem mem_of_mem_foldl_erase {rm : List Conn} :
    ∀ {all : List Conn} {c : Conn},
      c ∈ rm.foldl (fun a d => a.erase d) all → c ∈ all := by
  induction rm with
  | nil => intro all c h; simpa using h
  | cons d t ih =>
      intro all c h
      simp only [List.foldl_cons] at h
      exact List.erase_subset _ _ (ih h)

theorem nodup_foldl_erase {rm : List Conn} :
    ∀ {all : List Conn}, all.Nodup →
      (rm.foldl (fun a d => a.erase d) all).Nodup := by
  induction rm with
  | nil => intro all h; simpa using h
  | cons d t ih =>
      intro all h
      simp only [List.foldl_cons]
      exact ih (h.erase d)

theorem not_mem_foldl_erase {rm : List Conn} :
    ∀ {all : List Conn} {c : Conn}, all.Nodup → c ∈ rm →
      c ∉ rm.foldl (fun a d => a.erase d) all := by
  induction rm with
  | nil => intro all c _ h; simp at h
  | cons d t ih =>
      intro all c hnd hm
      simp only [List.foldl_cons]
      rcases List.mem_cons.mp hm with rfl | hm
      · intro hmem
        exact (hnd.mem_erase_iff.mp (mem_of_mem_foldl_erase hmem)).1 rfl
      · exact ih (hnd.erase d) hm

namespace ConnectionPool

theorem warmer_true {c : Conn} {e : Int × Conn} (h : warmer c e = true) :
    c.ngc < e.2.ngc :=
  of_decide_eq_true h

theorem warmer_false {c : Conn} {e : Int × Conn} (h : warmer c e = false) :
    e.2.ngc ≤ c.ngc :=
  Nat.le_of_not_lt (of_decide_eq_false h)

theorem mem_takeWhile_warmer {c : Conn} {r : List (Int × Conn)}
    {e : Int × Conn} (h : e ∈ r.takeWhile (warmer c)) : c.ngc < e.2.ngc := by
  have h2 : warmer c e = true := List.mem_takeWhile_imp h
  exact warmer_true h2

/-- Structure of `_append`: the new entry is placed between a prefix
`p` and the maximal all-warmer-than-`c` suffix `q` of the old stack,
the last entry of `p` (when `p` is non-empty) being at most as warm as
`c`; `q` is empty exactly when the old stack was empty or ended in an
entry at most as warm as `c` (the plain-append case). -/
theorem appendConn_split (now : Int) (c : Conn) (avail : List (Int × Conn)) :
    ∃ p q, avail = p ++ q ∧
      appendConn now c avail = p ++ (now, c) :: q ∧
      (∀ e ∈ q, c.ngc < e.2.ngc) ∧
      (∀ e, p.getLast? = some e → e.2.ngc ≤ c.ngc) ∧
      (q = [] ↔ ∀ e, avail.getLast? = some e → e.2.ngc ≤ c.ngc) := by
  refine ⟨(avail.reverse.dropWhile (warmer c)).reverse,
          (avail.reverse.takeWhile (warmer c)).reverse, ?_, rfl, ?_, ?_, ?_⟩
  · rw [← List.reverse_append, List.takeWhile_append_dropWhile,
      List.reverse_reverse]
  · intro e he
    exact mem_takeWhile_warmer (List.mem_reverse.mp he)
  · intro e he
    rw [List.getLast?_reverse] at he
    exact warmer_false (head_dropWhile_false (warmer c) avail.reverse e he)
  · constructor
    · intro hq e he
      rw [← List.head?_reverse] at he
      rw [List.reverse_eq_nil_iff] at hq
      cases hr : avail.reverse with
      | nil => rw [hr] at he; simp at he
      | cons a t =>
          rw [hr] at he
          simp only [List.head?_cons, Option.some.injEq] at he
          subst he
          rw [hr, List.takeWhile_cons] at hq
          by_cases hw : warmer c a = true
          · simp [hw] at hq
          · exact warmer_false (Bool.eq_false_iff.mpr hw)
    · intro h
      rw [List.reverse_eq_nil_iff]
      cases hr : avail.reverse with
      | nil => simp
      | cons a t =>
          rw [List.takeWhile_cons]
          have ha : avail.getLast? = some a := by
            rw [← List.head?_reverse, hr, List.head?_cons]
          have hw : warmer c a = false :=
            decide_eq_false (Nat.not_lt.mpr (h a ha))
          simp [hw]

/-- Entries of the dropped part of a reversed stack: when the reversed
stack is sorted warmest-first, everything past the `warmer` prefix is
at most as warm as `c`. -/
theorem dropWhile_warmth_le (c : Conn) (r : List (Int × Conn))
    (hr : r.Pairwise fun a b => b.2.ngc ≤ a.2.ngc) :
    ∀ e ∈ r.dropWhile (warmer c), e.2.ngc ≤ c.ngc := by
  cases hd : r.dropWhile (warmer c) with
  | nil => simp
  | cons x t =>
      have hx : warmer c x = false :=
        head_dropWhile_false (warmer c) r x (by rw [hd]; rfl)
      have hxle : x.2.ngc ≤ c.ngc := warmer_false hx
      have hsub : (x :: t).Sublist r := by
        rw [← hd]; exact (List.dropWhile_suffix (warmer c)).sublist
      have hp := List.Pairwise.sublist hsub hr
      intro e he
      rcases List.mem_cons.mp he with rfl | he2
      · exact hxle
      · exact le_trans ((List.pairwise_cons.mp hp).1 e he2) hxle

/-- `_append` preserves the warmth-sortedness of the stack. -/
theorem appendConn_pairwise (now : Int) (c : Conn)
    (avail : List (Int × Conn)) (h : avail.Pairwise warmthLe) :
    (appendConn now c avail).Pairwise warmthLe := by
  have hrev : avail.reverse.Pairwise fun a b => warmthLe b a :=
    List.pairwise_reverse.mpr h
  have hdrop : ∀ e ∈ avail.reverse.dropWhile (warmer c), e.2.ngc ≤ c.ngc :=
    dropWhile_warmth_le c avail.reverse hrev
  rw [appendConn, List.pairwise_append]
  refine ⟨?_, ?_, ?_⟩
  · rw [List.pairwise_reverse]
    exact List.Pairwise.sublist
      ((List.dropWhile_suffix (warmer c)).sublist) hrev
  · rw [List.pairwise_cons]
    refine ⟨fun e he =>
      le_of_lt (mem_takeWhile_warmer (List.mem_reverse.mp he)), ?_⟩
    rw [List.pairwise_reverse]
    exact List.Pairwise.sublist (List.takeWhile_sublist (warmer c)) hrev
  · intro a ha b hb
    have haw : a.2.ngc ≤ c.ngc := hdrop a (List.mem_reverse.mp ha)
    rcases List.mem_cons.mp hb with rfl | hb2
    · exact haw
    · exact le_trans haw
        (le_of_lt (mem_takeWhile_warmer (List.mem_reverse.mp hb2)))

/-- Specification of the `_reduce_size` loop: on success the surviving
stack is a suffix of the input, the released connections are exactly
those of the dropped prefix (appended to the accumulator), `all` lost
exactly the dropped connections (erased one by one), the survivors fit
the target, and the surviving front entry is fresh. -/
theorem reduceLoop_split (th tg : Int) :
    ∀ (avail : List (Int × Conn)) (all rel : List Conn)
      (avail2 : List (Int × Conn)) (all2 rel2 : List Conn),
      reduceLoop th tg avail all rel = some (avail2, all2, rel2) →
      ∃ pre, avail = pre ++ avail2 ∧
        rel2 = rel ++ availConns pre ∧
        all2 = (availConns pre).foldl (fun a d => a.erase d) all ∧
        (avail2.length : Int) ≤ tg ∧
        ∀ e, avail2.head? = some e → th ≤ e.1 := by
  intro avail
  induction avail with
  | nil =>
      intro all rel avail2 all2 rel2 h
      rw [reduceLoop] at h
      by_cases h0 : (0 : Int) > tg
      · simp [h0] at h
      · simp [h0] at h
        obtain ⟨h1, h2, h3⟩ := h
        refine ⟨[], by simp [h1], by simp [availConns, h3],
          by simp [availConns, h2], ?_, by simp [h1]⟩
        rw [h1]
        simpa using Int.not_lt.mp h0
  | cons e rest ih =>
      intro all rel avail2 all2 rel2 h
      rw [reduceLoop] at h
      by_cases hc : ((e :: rest).length : Int) > tg ∨ e.1 < th
      · rw [if_pos hc] at h
        obtain ⟨pre, hpre, hrel, hall, hlen, hhead⟩ :=
          ih (all.erase e.2) (rel ++ [e.2]) avail2 all2 rel2 h
        refine ⟨e :: pre, ?_, ?_, ?_, hlen, hhead⟩
        · rw [List.cons_append, hpre]
        · rw [hrel]
          simp [availConns]
        · rw [hall]
          simp [availConns]
      · rw [if_neg hc] at h
        simp only [Option.some.injEq, Prod.mk.injEq] at h
        obtain ⟨h1, h2, h3⟩ := h
        push_neg at hc
        refine ⟨[], by simp [h1], by simp [availConns, h3],
          by simp [availConns, h2], ?_, ?_⟩
        · rw [← h1]; exact hc.1
        · rw [← h1]
          intro x hx
          rw [List.head?_cons] at hx
          cases hx
          exact hc.2

end ConnectionPool

namespace ConnectionPool

/-- Unpacked form of `reduceSize`: the new state keeps `size` and
`timeout` and satisfies the `reduceLoop` specification. -/
theorem reduceSize_split {now : Int} {sl : Bool} {st st2 : PoolState}
    {rel : List Conn} (h : reduceSize now sl st = some (st2, rel)) :
    st2.size = st.size ∧ st2.timeout = st.timeout ∧
    ∃ pre, st.available = pre ++ st2.available ∧
      rel = availConns pre ∧
      st2.all = (availConns pre).foldl (fun a d => a.erase d) st.all ∧
      (st2.available.length : Int) ≤ (if sl then st.size - 1 else st.size) ∧
      ∀ e, st2.available.head? = some e → now - st.timeout ≤ e.1 := by
  rw [reduceSize] at h
  cases hl : reduceLoop (now - st.timeout) (if sl then st.size - 1 else st.size)
      st.available st.all [] with
  | none => rw [hl] at h; cases h
  | some res =>
      rw [hl] at h
      obtain ⟨avail, all, released⟩ := res
      simp only [Option.some.injEq] at h
      obtain ⟨pre, hpre, hrel, hall, hlen, hhead⟩ :=
        reduceLoop_split _ _ _ _ _ _ _ _ hl
      cases h
      exact ⟨rfl, rfl, pre, hpre, by simpa using hrel, hall, hlen, hhead⟩

theorem reduceSize_WF {now : Int} {sl : Bool} {st st2 : PoolState}
    {rel : List Conn} (hwf : PoolWF st)
    (h : reduceSize now sl st = some (st2, rel)) : PoolWF st2 := by
  obtain ⟨-, -, pre, hpre, -, hall, -, -⟩ := reduceSize_split h
  obtain ⟨hnall, hnav, hsub⟩ := hwf
  have hmap : availConns st.available =
      availConns pre ++ availConns st2.available := by
    rw [hpre, availConns, List.map_append]; rfl
  have hnav2 : (availConns st2.available).Nodup := by
    rw [hmap] at hnav
    exact hnav.of_append_right
  refine ⟨?_, hnav2, ?_⟩
  · rw [hall]; exact nodup_foldl_erase hnall
  · intro c hc
    rw [hall]
    refine mem_foldl_erase (hsub c (by rw [hmap]; exact List.mem_append_right _ hc)) ?_
    rw [hmap] at hnav
    exact fun hcpre => (List.disjoint_of_nodup_append hnav) hcpre hc

theorem reduceSize_sorted {now : Int} {sl : Bool} {st st2 : PoolState}
    {rel : List Conn} (hs : WarmSorted st)
    (h : reduceSize now sl st = some (st2, rel)) : WarmSorted st2 := by
  obtain ⟨-, -, pre, hpre, -, -, -, -⟩ := reduceSize_split h
  have : st2.available.Sublist st.available := by
    rw [hpre]; exact List.sublist_append_right _ _
  exact List.Pairwise.sublist this hs

theorem reduceSize_all_subset {now : Int} {sl : Bool} {st st2 : PoolState}
    {rel : List Conn} (h : reduceSize now sl st = some (st2, rel)) :
    ∀ c ∈ st2.all, c ∈ st.all := by
  obtain ⟨-, -, pre, -, -, hall, -, -⟩ := reduceSize_split h
  intro c hc
  rw [hall] at hc
  exact mem_of_mem_foldl_erase hc

theorem availConns_append (l1 l2 : List (Int × Conn)) :
    availConns (l1 ++ l2) = availConns l1 ++ availConns l2 :=
  List.map_append _ _ _

theorem push_preserves {now : Int} {c : Conn} {st st2 : PoolState}
    {log : Option LogLevel} (hwf : PoolWF st) (hs : WarmSorted st)
    (hna : c ∉ availConns st.available)
    (h : push now c st = some (st2, log)) : PoolWF st2 ∧ WarmSorted st2 := by
  rw [push] at h
  by_cases hc : c ∈ st.all
  · rw [if_pos hc] at h; cases h
  rw [if_neg hc] at h
  cases hred : reduceSize now true st with
  | none => rw [hred] at h; cases h
  | some res =>
      rw [hred] at h
      obtain ⟨st1, rel⟩ := res
      simp only [Option.some.injEq, Prod.mk.injEq] at h
      obtain ⟨hst2, -⟩ := h
      have hwf1 : PoolWF st1 := reduceSize_WF hwf hred
      have hs1 : WarmSorted st1 := reduceSize_sorted hs hred
      have hc1 : c ∉ st1.all := fun hm => hc (reduceSize_all_subset hred c hm)
      have hna1 : c ∉ availConns st1.available := by
        obtain ⟨-, -, pre, hpre, -, -, -, -⟩ := reduceSize_split hred
        intro hm
        refine hna ?_
        rw [hpre, availConns_append]
        exact List.mem_append_right _ hm
      obtain ⟨p, q, hsplit, happ, -, -, -⟩ := appendConn_split now c st1.available
      have hconns : availConns (appendConn now c st1.available) =
          availConns p ++ c :: availConns q := by
        rw [happ, availConns_append]; rfl
      have hpq : availConns p ++ availConns q = availConns st1.available := by
        rw [hsplit, availConns_append]
      constructor
      · refine ⟨?_, ?_, ?_⟩
        · rw [← hst2]
          refine List.Nodup.append hwf1.1 (List.nodup_singleton c) ?_
          intro x hx hxc
          simp only [List.mem_singleton] at hxc
          exact hc1 (hxc ▸ hx)
        · rw [← hst2]
          simp only [hconns]
          rw [List.nodup_middle, hpq]
          exact List.nodup_cons.mpr ⟨hna1, hwf1.2.1⟩
        · intro x hx
          rw [← hst2] at hx ⊢
          simp only [hconns] at hx
          rcases List.mem_append.mp hx with hxp | hxq
          · exact List.mem_append_left _
              (hwf1.2.2 x (by rw [← hpq]; exact List.mem_append_left _ hxp))
          · rcases List.mem_cons.mp hxq with rfl | hxq2
            · exact List.mem_append_right _ (List.mem_singleton_self x)
            · exact List.mem_append_left _
                (hwf1.2.2 x (by rw [← hpq]; exact List.mem_append_right _ hxq2))
      · rw [WarmSorted, ← hst2]
        exact appendConn_pairwise now c st1.available hs1

theorem repush_preserves {now : Int} {c : Conn} {st st2 : PoolState}
    (hwf : PoolWF st) (hs : WarmSorted st)
    (hna : c ∉ availConns st.available)
    (h : repush now c st = some st2) : PoolWF st2 ∧ WarmSorted st2 := by
  rw [repush] at h
  by_cases hc : c ∈ st.all
  swap
  · rw [if_neg hc] at h; cases h
  rw [if_pos hc] at h
  cases hred : reduceSize now true st with
  | none => rw [hred] at h; cases h
  | some res =>
      rw [hred] at h
      obtain ⟨st1, rel⟩ := res
      simp only [Option.some.injEq] at h
      have hwf1 : PoolWF st1 := reduceSize_WF hwf hred
      have hs1 : WarmSorted st1 := reduceSize_sorted hs hred
      obtain ⟨-, -, pre, hpre, -, hall, -, -⟩ := reduceSize_split hred
      have hna1 : c ∉ availConns st1.available := by
        intro hm
        refine hna ?_
        rw [hpre, availConns_append]
        exact List.mem_append_right _ hm
      have hnapre : c ∉ availConns pre := by
        intro hm
        refine hna ?_
        rw [hpre, availConns_append]
        exact List.mem_append_left _ hm
      have hc1 : c ∈ st1.all := by
        rw [hall]
        exact mem_foldl_erase hc hnapre
      obtain ⟨p, q, hsplit, happ, -, -, -⟩ := appendConn_split now c st1.available
      have hconns : availConns (appendConn now c st1.available) =
          availConns p ++ c :: availConns q := by
        rw [happ, availConns_append]; rfl
      have hpq : availConns p ++ availConns q = availConns st1.available := by
        rw [hsplit, availConns_append]
      constructor
      · refine ⟨?_, ?_, ?_⟩
        · rw [← h]; exact hwf1.1
        · rw [← h]
          simp only [hconns]
          rw [List.nodup_middle, hpq]
          exact List.nodup_cons.mpr ⟨hna1, hwf1.2.1⟩
        · intro x hx
          rw [← h] at hx ⊢
          simp only [hconns] at hx
          rcases List.mem_append.mp hx with hxp | hxq
          · exact hwf1.2.2 x (by rw [← hpq]; exact List.mem_append_left _ hxp)
          · rcases List.mem_cons.mp hxq with rfl | hxq2
            · exact hc1
            · exact hwf1.2.2 x (by rw [← hpq]; exact List.mem_append_right _ hxq2)
      · rw [WarmSorted, ← h]
        exact appendConn_pairwise now c st1.available hs1

theorem pop_preserves {st st2 : PoolState} {r : Option Conn}
    (hwf : PoolWF st) (hs : WarmSorted st)
    (h : pop st = some (r, st2)) : PoolWF st2 ∧ WarmSorted st2 := by
  rw [pop] at h
  split at h
  · simp only [Option.some.injEq, Prod.mk.injEq] at h
    rw [← h.2]
    exact ⟨hwf, hs⟩
  · split at h
    · simp only [Option.some.injEq, Prod.mk.injEq] at h
      have hsub : st.available.dropLast.Sublist st.available :=
        List.dropLast_sublist st.available
      have hmsub : (availConns st.available.dropLast).Sublist
          (availConns st.available) := List.Sublist.map _ hsub
      refine ⟨⟨?_, ?_, ?_⟩, ?_⟩
      · rw [← h.2]; exact hwf.1
      · rw [← h.2]; exact hwf.2.1.sublist hmsub
      · intro x hx
        rw [← h.2] at hx ⊢
        exact hwf.2.2 x (hmsub.mem hx)
      · rw [WarmSorted, ← h.2]
        exact List.Pairwise.sublist hsub hs
    · cases h

theorem availableGC_preserves {now : Int} {st : PoolState}
    (hwf : PoolWF st) (hs : WarmSorted st) :
    PoolWF (availableGC now st).1 ∧ WarmSorted (availableGC now st).1 := by
  rw [availableGC]
  simp only
  set toRemove :=
    availConns (st.available.filter fun e => decide (e.1 < now - st.timeout))
    with htr
  by_cases h0 : toRemove = []
  · simp only [h0, if_pos rfl]
    refine ⟨⟨?_, hwf.2.1, hwf.2.2⟩, hs⟩
    simp [hwf.1]
  · rw [if_neg h0]
    have hsub : (st.available.filter
        fun e => decide (e.2 ∉ toRemove)).Sublist st.available :=
      List.filter_sublist st.available
    have hmsub : (availConns (st.available.filter
        fun e => decide (e.2 ∉ toRemove))).Sublist (availConns st.available) :=
      List.Sublist.map _ hsub
    refine ⟨⟨nodup_foldl_erase hwf.1, hwf.2.1.sublist hmsub, ?_⟩, ?_⟩
    · intro x hx
      obtain ⟨e, he, hex⟩ := List.mem_map.mp hx
      have hkeep : e.2 ∉ toRemove := by
        have := List.of_mem_filter he
        exact of_decide_eq_true this
      refine mem_foldl_erase ?_ (hex ▸ hkeep)
      exact hwf.2.2 x (hex ▸ List.mem_map_of_mem Prod.snd (hsub.mem he))
    · exact List.Pairwise.sublist hsub hs

end ConnectionPool

/-- Every reachable pool state is well-formed and warmth-sorted. -/
theorem reachable_WF_sorted : ∀ st, Reachable st → PoolWF st ∧ WarmSorted st := by
  intro st h
  induction h with
  | init size timeout =>
      exact ⟨⟨by simp [ConnectionPool.init],
        by simp [ConnectionPool.init, availConns],
        by simp [ConnectionPool.init, availConns]⟩,
        by simp [WarmSorted, ConnectionPool.init]⟩
  | push now c st st2 log hr hna heq ih =>
      exact ConnectionPool.push_preserves ih.1 ih.2 hna heq
  | repush now c st st2 hr hna heq ih =>
      exact ConnectionPool.repush_preserves ih.1 ih.2 hna heq
  | pop st st2 r hr heq ih =>
      exact ConnectionPool.pop_preserves ih.1 ih.2 heq
  | reduce now st st2 rel hr heq ih =>
      exact ⟨ConnectionPool.reduceSize_WF ih.1 heq,
        ConnectionPool.reduceSize_sorted ih.2 heq⟩
  | gc now st hr ih =>
      exact ConnectionPool.availableGC_preserves ih.1 ih.2

/-! Claim theorems. -/

/-- Claim C8: `getTID` returns, for a sole `at` argument, the
serialization of the smallest timestamp strictly later than the
timestamp of `at` (its successor in the raw-key order); for a sole
`before` argument, the timestamp of `before` serialized directly; for
two absent arguments, null; and for two present arguments it raises
`ValueError`. -/
theorem getTID_normalization (a b : TimeVal) :
    getTID (some a) none = Except.ok (some (toTS a + 1)) ∧
    getTID none (some b) = Except.ok (some (toTS b)) ∧
    getTID none none = Except.ok none ∧
    getTID (some a) (some b) =
      Except.error "can only pass zero or one of `at` and `before`" := by
  refine ⟨?_, rfl, rfl, rfl⟩
  simp [getTID, TimeStamp.laterThan]

/-- Claim C1 counterexample: with last transaction key 5, the
normalized `before` key 6 is strictly greater than the last
transaction, yet `DB.open` does not raise the future-connection
`ValueError`: its guard passes and the strictly greater key is served.
(The guard only fires beyond `getTID(lastTransaction, None)`, the
successor key.) -/
theorem openBeforeCheck_serves_greater_key :
    DB.openBeforeCheck none (some (TimeVal.raw 6)) 5 = Except.ok (some 6) ∧
    6 > 5 := by
  constructor
  · rfl
  · decide

/-- Claim C1 amended: opening with a normalized `before` key fails with
the future-connection `ValueError` exactly when the key is strictly
greater than `getTID(lastTransaction, None)`, the smallest key strictly
later than the last committed transaction; so `before` equal to the
last transaction succeeds, the successor key also succeeds, and every
key beyond the successor fails.  An `at` argument (normalized to its
successor) fails exactly when it is strictly greater than the last
transaction. -/
theorem openBeforeCheck_boundary (lt bv av : Nat) :
    (DB.openBeforeCheck none (some (TimeVal.raw bv)) lt =
      if lt + 1 < bv then
        Except.error "cannot open an historical connection in the future."
      else Except.ok (some bv)) ∧
    (DB.openBeforeCheck (some (TimeVal.raw av)) none lt =
      if lt < av then
        Except.error "cannot open an historical connection in the future."
      else Except.ok (some (av + 1))) := by
  have hlater : TimeStamp.laterThan lt lt = lt + 1 := by
    simp [TimeStamp.laterThan]
  constructor
  · simp only [DB.openBeforeCheck, getTID, toTS, hlater, gt_iff_lt]
    by_cases h : lt + 1 < bv
    · rw [if_pos h, if_pos]
      simp only [Bool.and_eq_true, decide_eq_true_eq]
      exact ⟨by omega, by omega⟩
    · rw [if_neg h, if_neg]
      simp only [Bool.and_eq_true, decide_eq_true_eq, not_and]
      intro h1 h2
      omega
  · have hlater2 : TimeStamp.laterThan av av = av + 1 := by
      simp [TimeStamp.laterThan]
    simp only [DB.openBeforeCheck, getTID, toTS, hlater, hlater2, gt_iff_lt]
    by_cases h : lt < av
    · rw [if_pos h, if_pos]
      simp only [Bool.and_eq_true, decide_eq_true_eq]
      exact ⟨by omega, by omega⟩
    · rw [if_neg h, if_neg]
      simp only [Bool.and_eq_true, decide_eq_true_eq, not_and]
      intro h1 h2
      omega

/-- Claim C10: when the storage does not support undo (the
`supportsUndo` attribute is absent or returns false), `undoLog` and
`undoInfo` return the empty tuple and `undoMultiple` (hence `undo`)
raises `NotImplementedError`; when it does, all of them delegate to
the storage. -/
theorem undo_support_delegation (s : StorageU) (ids : List Nat) (i : Nat) :
    (DB.supportsUndo s = false ↔
      (s.supportsUndoF = none ∨ s.supportsUndoF = some false)) ∧
    ((DB.supportsUndo s = false ∧ DB.undoLog s = [] ∧ DB.undoInfo s = [] ∧
        DB.undoMultiple s ids = Except.error () ∧
        DB.undo s i = Except.error ()) ∨
      (DB.supportsUndo s = true ∧ DB.undoLog s = s.undoLogR ∧
        DB.undoInfo s = s.undoInfoR ∧
        DB.undoMultiple s ids = Except.ok ids ∧
        DB.undo s i = Except.ok [i])) := by
  constructor
  · cases h : s.supportsUndoF with
    | none => simp [DB.supportsUndo, h]
    | some b => cases b <;> simp [DB.supportsUndo, h]
  · by_cases h : DB.supportsUndo s = true
    · right
      simp [h, DB.undoLog, DB.undoInfo, DB.undoMultiple, DB.undo]
    · left
      have h2 : DB.supportsUndo s = false := by
        simpa using h
      simp [h2, DB.undoLog, DB.undoInfo, DB.undoMultiple, DB.undo]

namespace TransactionalUndo

theorem commit_trace (undo : Nat → Option (Nat × List Nat)) :
    ∀ (tids : List Nat) (oids : Finset Nat),
      (commit undo tids oids).2 = tids := by
  intro tids
  induction tids with
  | nil => intro oids; rfl
  | cons t rest ih =>
      intro oids
      rw [commit]
      simp only [List.cons.injEq, true_and]
      exact ih _

theorem mem_commit (undo : Nat → Option (Nat × List Nat)) :
    ∀ (tids : List Nat) (oids : Finset Nat) (x : Nat),
      x ∈ (commit undo tids oids).1 ↔
        x ∈ oids ∨ ∃ t ∈ tids, ∃ r, undo t = some r ∧ x ∈ r.2 := by
  intro tids
  induction tids with
  | nil =>
      intro oids x
      simp [commit]
  | cons t rest ih =>
      intro oids x
      rw [commit]
      simp only
      rw [ih]
      cases hu : undo t with
      | none =>
          simp only [List.mem_cons]
          constructor
          · rintro (hx | ⟨u, hu2, r, hur, hxr⟩)
            · exact Or.inl hx
            · exact Or.inr ⟨u, Or.inr hu2, r, hur, hxr⟩
          · rintro (hx | ⟨u, (rfl | hu2), r, hur, hxr⟩)
            · exact Or.inl hx
            · rw [hu] at hur; cases hur
            · exact Or.inr ⟨u, hu2, r, hur, hxr⟩
      | some res =>
          simp only [Finset.mem_union, List.mem_toFinset, List.mem_cons]
          constructor
          · rintro ((hx | hxr) | ⟨u, hu2, r, hur, hxr⟩)
            · exact Or.inl hx
            · exact Or.inr ⟨t, Or.inl rfl, res, hu, hxr⟩
            · exact Or.inr ⟨u, Or.inr hu2, r, hur, hxr⟩
          · rintro (hx | ⟨u, (rfl | hu2), r, hur, hxr⟩)
            · exact Or.inl (Or.inl hx)
            · rw [hu] at hur
              cases hur
              exact Or.inl (Or.inr hxr)
            · exact Or.inr ⟨u, hu2, r, hur, hxr⟩

theorem mem_foldl_insert :
    ∀ (l : List (Nat × Nat)) (oids : Finset Nat) (x : Nat),
      x ∈ l.foldl (fun s p => insert p.1 s) oids ↔
        x ∈ oids ∨ ∃ p ∈ l, p.1 = x := by
  intro l
  induction l with
  | nil => intro oids x; simp
  | cons p rest ih =>
      intro oids x
      rw [List.foldl_cons, ih]
      simp only [Finset.mem_insert, List.mem_cons]
      constructor
      · rintro ((rfl | hx) | ⟨q, hq, rfl⟩)
        · exact Or.inr ⟨p, Or.inl rfl, rfl⟩
        · exact Or.inl hx
        · exact Or.inr ⟨q, Or.inr hq, rfl⟩
      · rintro (hx | ⟨q, (rfl | hq), rfl⟩)
        · exact Or.inl (Or.inr hx)
        · exact Or.inl (Or.inl rfl)
        · exact Or.inr ⟨q, hq, rfl⟩

theorem mem_tpcVote (vote : Option (List (Nat × Nat))) (oids : Finset Nat)
    (x : Nat) :
    x ∈ tpcVote vote oids ↔ x ∈ oids ∨ ∃ s, (x, s) ∈ vote.getD [] := by
  rw [tpcVote, mem_foldl_insert]
  constructor
  · rintro (hx | ⟨⟨q1, q2⟩, hq, rfl⟩)
    · exact Or.inl hx
    · exact Or.inr ⟨q2, hq⟩
  · rintro (hx | ⟨s, hs⟩)
    · exact Or.inl hx
    · exact Or.inr ⟨(x, s), hs, rfl⟩

end TransactionalUndo

theorem DB_invalidate_none_eq_map (tid : Nat) (oids : Finset Nat)
    (st : DBState) :
    DB.invalidate tid oids none st =
      (DB.connectionMapList st).map fun c => (c, tid, oids) := by
  rw [DB.invalidate]
  induction DB.connectionMapList st with
  | nil => rfl
  | cons d l ih =>
      rw [List.filterMap_cons, List.map_cons]
      simpa using ih

/-- Claim C6: over tids in list order, `TransactionalUndo.commit`
calls `storage.undo` once per tid (the call trace is the tid list),
merging the oid set of every non-null result; `tpc_vote` merges the
oids returned by the storage vote; and the callback handed to the
storage by `tpc_finish` invokes `Database.invalidate` with the
assigned tid and the union of all accumulated oids, delivering it to
every tracked connection. -/
theorem transactionalUndo_accumulates (undo : Nat → Option (Nat × List Nat))
    (vote : Option (List (Nat × Nat))) (tids : List Nat) (st : DBState)
    (atid : Nat) :
    (TransactionalUndo.commit undo tids ∅).2 = tids ∧
    (∀ x, x ∈ TransactionalUndo.tpcVote vote
        (TransactionalUndo.commit undo tids ∅).1 ↔
      ((∃ t ∈ tids, ∃ r, undo t = some r ∧ x ∈ r.2) ∨
        ∃ s, (x, s) ∈ vote.getD [])) ∧
    TransactionalUndo.tpcFinishCalls st atid
        (TransactionalUndo.tpcVote vote
          (TransactionalUndo.commit undo tids ∅).1) =
      (DB.connectionMapList st).map fun c =>
        (c, atid, TransactionalUndo.tpcVote vote
          (TransactionalUndo.commit undo tids ∅).1) := by
  refine ⟨TransactionalUndo.commit_trace undo tids ∅, ?_, ?_⟩
  · intro x
    rw [TransactionalUndo.mem_tpcVote, TransactionalUndo.mem_commit]
    simp
  · rw [TransactionalUndo.tpcFinishCalls, DB_invalidate_none_eq_map]

theorem invalidate_filter_not_mem (tid : Nat) (oids : Finset Nat)
    (committer : Option Conn) (c : Conn) :
    ∀ (l : List Conn), c ∉ l →
      ((l.filterMap fun d =>
          if some d = committer then none else some (d, tid, oids)).filter
        fun call => decide (call.1 = c)) = [] := by
  intro l
  induction l with
  | nil => intro _; rfl
  | cons d t ih =>
      intro hc
      have hcd : c ≠ d := fun h => hc (h ▸ List.mem_cons_self d t)
      have hct : c ∉ t := fun h => hc (List.mem_cons_of_mem d h)
      rw [List.filterMap_cons]
      by_cases hd : some d = committer
      · rw [if_pos hd]
        exact ih hct
      · rw [if_neg hd, List.filter_cons]
        simp only [decide_eq_true_eq]
        rw [if_neg (fun h => hcd h.symm)]
        exact ih hct

theorem invalidate_filter_self (tid : Nat) (oids : Finset Nat)
    (committer : Option Conn) (c : Conn) :
    ∀ (l : List Conn), l.Nodup → c ∈ l → some c ≠ committer →
      ((l.filterMap fun d =>
          if some d = committer then none else some (d, tid, oids)).filter
        fun call => decide (call.1 = c)) = [(c, tid, oids)] := by
  intro l
  induction l with
  | nil => intro _ hc; cases hc
  | cons d t ih =>
      intro hnd hc hne
      rw [List.filterMap_cons]
      rcases List.mem_cons.mp hc with rfl | hct
      · rw [if_neg hne, List.filter_cons]
        simp only [decide_eq_true_eq]
        rw [if_pos (by simp)]
        rw [invalidate_filter_not_mem tid oids committer c t
          (List.nodup_cons.mp hnd).1]
      · by_cases hd : some d = committer
        · rw [if_pos hd]
          exact ih (List.nodup_cons.mp hnd).2 hct hne
        · rw [if_neg hd, List.filter_cons]
          have hcd : c ≠ d := by
            intro h
            exact (List.nodup_cons.mp hnd).1 (h ▸ hct)
          simp only [decide_eq_true_eq]
          rw [if_neg (fun h => hcd h.symm)]
          exact ih (List.nodup_cons.mp hnd).2 hct hne

theorem invalidate_filter_committer (tid : Nat) (oids : Finset Nat)
    (cm : Conn) :
    ∀ (l : List Conn),
      ((l.filterMap fun d =>
          if some d = some cm then none else some (d, tid, oids)).filter
        fun call => decide (call.1 = cm)) = [] := by
  intro l
  induction l with
  | nil => rfl
  | cons d t ih =>
      rw [List.filterMap_cons]
      by_cases hd : some d = some cm
      · rw [if_pos hd]
        exact ih
      · rw [if_neg hd, List.filter_cons]
        simp only [decide_eq_true_eq]
        rw [if_neg (fun h => hd (congrArg some h))]
        exact ih

/-- Claim C2: `Database.invalidate(tid, oids, committer)` delivers, via
`_connectionMap` over both pools, exactly one `invalidate(tid, oids)`
call to every tracked connection other than the committer, and none to
the committer. -/
theorem invalidate_fanout (st : DBState) (tid : Nat) (oids : Finset Nat)
    (committer : Option Conn) (hnd : (DB.connectionMapList st).Nodup) :
    (∀ c ∈ DB.connectionMapList st, some c ≠ committer →
      (DB.invalidate tid oids committer st).filter
        (fun call => decide (call.1 = c)) = [(c, tid, oids)]) ∧
    ∀ cm, committer = some cm →
      (DB.invalidate tid oids committer st).filter
        (fun call => decide (call.1 = cm)) = [] := by
  constructor
  · intro c hc hne
    rw [DB.invalidate]
    exact invalidate_filter_self tid oids committer c _ hnd hc hne
  · intro cm hcm
    subst hcm
    rw [DB.invalidate]
    exact invalidate_filter_committer tid oids cm _

/-- Witness for claim C2: three live connections, committer the second;
the first receives exactly the call `(42, {7, 9})` and the committer
receives nothing. -/
theorem invalidate_fanout_witness :
    (DB.connectionMapList fanDB).Nodup ∧
    (⟨1, 0⟩ : Conn) ∈ DB.connectionMapList fanDB ∧
    (DB.invalidate 42 {7, 9} (some ⟨2, 0⟩) fanDB).filter
      (fun call => decide (call.1 = (⟨1, 0⟩ : Conn))) =
        [(⟨1, 0⟩, 42, ({7, 9} : Finset Nat))] ∧
    (DB.invalidate 42 {7, 9} (some ⟨2, 0⟩) fanDB).filter
      (fun call => decide (call.1 = (⟨2, 0⟩ : Conn))) = [] :=
  ⟨by decide, by decide,
    (invalidate_fanout fanDB 42 {7, 9} (some ⟨2, 0⟩) (by decide)).1
      ⟨1, 0⟩ (by decide) (by decide),
    (invalidate_fanout fanDB 42 {7, 9} (some ⟨2, 0⟩) (by decide)).2
      ⟨2, 0⟩ rfl⟩

/-- Claim C4: `_append` inserts a connection of warmth `w` just before
the trailing block of strictly warmer entries when the last entry is
warmer (appending otherwise, which is the `q = []` case below); and on
every `available` stack produced by a sequence of pool operations the
trailing entries — in fact the whole stack — are non-decreasing in
`cache_non_ghost_count`. -/
theorem warmth_ordered_insertion (now : Int) (c : Conn)
    (avail : List (Int × Conn)) (st : PoolState) (hr : Reachable st) :
    (∃ p q, avail = p ++ q ∧
      ConnectionPool.appendConn now c avail = p ++ (now, c) :: q ∧
      (∀ e ∈ q, c.ngc < e.2.ngc) ∧
      (∀ e, p.getLast? = some e → e.2.ngc ≤ c.ngc) ∧
      (q = [] ↔ ∀ e, avail.getLast? = some e → e.2.ngc ≤ c.ngc)) ∧
    st.available.Pairwise fun a b => a.2.ngc ≤ b.2.ngc :=
  ⟨ConnectionPool.appendConn_split now c avail,
    (reachable_WF_sorted st hr).2⟩

/-- Witness for claim C4: inserting a cold connection under a warm top
entry, in the reachable one-entry pool `warmPoolA`. -/
theorem warmth_ordered_insertion_witness :
    Reachable warmPoolA ∧
    (∃ p q, ([(5, ⟨1, 100⟩)] : List (Int × Conn)) = p ++ q ∧
      ConnectionPool.appendConn 10 (⟨2, 50⟩ : Conn) [(5, ⟨1, 100⟩)] =
        p ++ (10, ⟨2, 50⟩) :: q ∧
      (∀ e ∈ q, (50 : Nat) < e.2.ngc) ∧
      (∀ e, p.getLast? = some e → e.2.ngc ≤ 50) ∧
      (q = [] ↔ ∀ e, ([(5, ⟨1, 100⟩)] : List (Int × Conn)).getLast? = some e →
        e.2.ngc ≤ 50)) ∧
    warmPoolA.available.Pairwise fun a b => a.2.ngc ≤ b.2.ngc := by
  have hreach : Reachable warmPoolA :=
    Reachable.push 5 ⟨1, 100⟩ (ConnectionPool.init 5 100) warmPoolA none
      (Reachable.init 5 100) (by decide) (by decide)
  exact ⟨hreach, warmth_ordered_insertion 10 ⟨2, 50⟩ [(5, ⟨1, 100⟩)]
    warmPoolA hreach⟩

/-- Claim C5: in every pool state reachable by `push`, `pop`,
`repush`, `reduce_size` and `available_gc` under their preconditions,
the `available` connections form a duplicate-free subset of `all`; and
immediately after any successful `reduce_size` the stack length is at
most the size target. -/
theorem pool_state_invariants (st : PoolState) (now : Int)
    (st2 : PoolState) (rel : List Conn) (hr : Reachable st)
    (hred : ConnectionPool.reduceSize now false st = some (st2, rel)) :
    ((∀ c ∈ availConns st.available, c ∈ st.all) ∧
      (availConns st.available).Nodup) ∧
    (st2.available.length : Int) ≤ st.size := by
  obtain ⟨hwf, -⟩ := reachable_WF_sorted st hr
  refine ⟨⟨hwf.2.2, hwf.2.1⟩, ?_⟩
  obtain ⟨-, -, pre, -, -, -, hlen, -⟩ := ConnectionPool.reduceSize_split hred
  simpa using hlen

/-- Witness for claim C5: the two-entry reachable pool `warmPoolB`;
`reduce_size` keeps both entries (well under the size target 5). -/
theorem pool_state_invariants_witness :
    Reachable warmPoolB ∧
    ConnectionPool.reduceSize 12 false warmPoolB = some (warmPoolB, []) ∧
    ((∀ c ∈ availConns warmPoolB.available, c ∈ warmPoolB.all) ∧
      (availConns warmPoolB.available).Nodup) ∧
    (warmPoolB.available.length : Int) ≤ warmPoolB.size := by
  have hA : Reachable warmPoolA :=
    Reachable.push 5 ⟨1, 100⟩ (ConnectionPool.init 5 100) warmPoolA none
      (Reachable.init 5 100) (by decide) (by decide)
  have hB : Reachable warmPoolB :=
    Reachable.push 10 ⟨2, 50⟩ warmPoolA warmPoolB none hA
      (by decide) (by decide)
  exact ⟨hB, by decide,
    pool_state_invariants warmPoolB 12 warmPoolB [] hB (by decide)⟩

/-- Claim C3 counterexample: in the reachable two-entry pool
`warmPoolB` (built by the two pushes proved below), shrinking the
timeout from 100 to 4 at time 12 removes nothing and releases nothing:
the entry enqueued at time 5 — older than the new timeout — survives
in `available` behind the fresher front entry, because the reaping
loop only pops from the front. -/
theorem setTimeout_stale_entry_survives :
    ConnectionPool.push 5 (⟨1, 100⟩ : Conn) (ConnectionPool.init 5 100) =
      some (warmPoolA, none) ∧
    ConnectionPool.push 10 (⟨2, 50⟩ : Conn) warmPoolA =
      some (warmPoolB, none) ∧
    (4 : Int) < warmPoolB.timeout ∧
    ConnectionPool.setTimeout 12 4 warmPoolB =
      some ({ warmPoolB with timeout := 4 }, []) ∧
    (5, (⟨1, 100⟩ : Conn)) ∈
      ({ warmPoolB with timeout := 4 } : PoolState).available ∧
    (5 : Int) < 12 - 4 := by
  exact ⟨by decide, by decide, by decide, by decide, by decide, by decide⟩

/-- Claim C3 amended: after `setTimeout` shrinks the timeout, the
reaping loop removes a prefix of `available`: each dropped connection
is released and removed from `all`, the surviving stack fits the size
target, and the surviving front entry is not older than the new
timeout.  Entries sitting behind a fresher entry may remain in
`available` even when older than the new timeout. -/
theorem setTimeout_reaps_stale_prefix (now t2 : Int) (st st2 : PoolState)
    (rel : List Conn) (hwf : PoolWF st) (ht : t2 < st.timeout)
    (h : ConnectionPool.setTimeout now t2 st = some (st2, rel)) :
    (∀ e, st2.available.head? = some e → now - t2 ≤ e.1) ∧
    (st2.available.length : Int) ≤ st.size ∧
    ∃ pre, st.available = pre ++ st2.available ∧ rel = availConns pre ∧
      ∀ c ∈ rel, c ∉ st2.all := by
  rw [ConnectionPool.setTimeout] at h
  rw [if_pos ht] at h
  obtain ⟨hsize, htime, pre, hpre, hrel, hall, hlen, hhead⟩ :=
    ConnectionPool.reduceSize_split h
  refine ⟨hhead, by simpa using hlen, pre, hpre, hrel, ?_⟩
  intro c hcrel
  rw [hall]
  rw [hrel] at hcrel
  exact not_mem_foldl_erase hwf.1 hcrel

/-- Witness for claim C3 amended: the one-entry pool `reapPool` whose
entry is stale at time 200 under the shrunken timeout 50; `setTimeout`
reaps it, releases it and drops it from `all`. -/
theorem setTimeout_reaps_stale_prefix_witness :
    PoolWF reapPool ∧ (50 : Int) < reapPool.timeout ∧
    ConnectionPool.setTimeout 200 50 reapPool =
      some (reapedPool, [⟨3, 0⟩]) ∧
    ((∀ e, reapedPool.available.head? = some e → (200 : Int) - 50 ≤ e.1) ∧
      (reapedPool.available.length : Int) ≤ reapPool.size ∧
      ∃ pre, reapPool.available = pre ++ reapedPool.available ∧
        ([⟨3, 0⟩] : List Conn) = availConns pre ∧
        ∀ c ∈ ([⟨3, 0⟩] : List Conn), c ∉ reapedPool.all) :=
  ⟨by decide, by decide, by decide,
    setTimeout_reaps_stale_prefix 200 50 reapPool reapedPool [⟨3, 0⟩]
      (by decide) (by decide) (by decide)⟩

theorem ConnectionPool.reduceLoop_isSome (th tg : Int) (htg : 0 ≤ tg) :
    ∀ (avail : List (Int × Conn)) (all rel : List Conn),
      (ConnectionPool.reduceLoop th tg avail all rel).isSome := by
  intro avail
  induction avail with
  | nil =>
      intro all rel
      rw [ConnectionPool.reduceLoop, if_neg (by omega)]
      rfl
  | cons e rest ih =>
      intro all rel
      rw [ConnectionPool.reduceLoop]
      by_cases hc : ((e :: rest).length : Int) > tg ∨ e.1 < th
      · rw [if_pos hc]
        exact ih _ _
      · rw [if_neg hc]
        rfl

theorem ConnectionPool.reduceSize_isSome (now : Int) (sl : Bool)
    (st : PoolState) (h : 0 ≤ (if sl then st.size - 1 else st.size)) :
    (ConnectionPool.reduceSize now sl st).isSome := by
  rw [ConnectionPool.reduceSize]
  have := ConnectionPool.reduceLoop_isSome (now - st.timeout)
    (if sl then st.size - 1 else st.size) h st.available st.all []
  cases h2 : ConnectionPool.reduceLoop (now - st.timeout)
      (if sl then st.size - 1 else st.size) st.available st.all [] with
  | none => rw [h2] at this; cases this
  | some res =>
      obtain ⟨avail, all, released⟩ := res
      rfl

/-- Claim C7 counterexample: with `pool_size=2`, push and check out
three connections (the third push logs a warning, as the claim says),
then push a fourth: the code logs a warning, not a critical message,
because `len(all)` is 4 and the critical branch needs it to exceed
`2 * 2`. -/
theorem fourth_push_logs_warning :
    ConnectionPool.push 0 (capConn 1) (ConnectionPool.init 2 (2 ^ 31)) =
      some (capPool [capConn 1] [(0, capConn 1)], none) ∧
    ConnectionPool.pop (capPool [capConn 1] [(0, capConn 1)]) =
      some (some (capConn 1), capPool [capConn 1] []) ∧
    ConnectionPool.push 0 (capConn 2) (capPool [capConn 1] []) =
      some (capPool [capConn 1, capConn 2] [(0, capConn 2)], none) ∧
    ConnectionPool.pop (capPool [capConn 1, capConn 2] [(0, capConn 2)]) =
      some (some (capConn 2), capPool [capConn 1, capConn 2] []) ∧
    ConnectionPool.push 0 (capConn 3) (capPool [capConn 1, capConn 2] []) =
      some (capPool [capConn 1, capConn 2, capConn 3] [(0, capConn 3)],
        some LogLevel.warn) ∧
    ConnectionPool.pop
        (capPool [capConn 1, capConn 2, capConn 3] [(0, capConn 3)]) =
      some (some (capConn 3), capPool [capConn 1, capConn 2, capConn 3] []) ∧
    ConnectionPool.push 0 (capConn 4)
        (capPool [capConn 1, capConn 2, capConn 3] []) =
      some (capPool [capConn 1, capConn 2, capConn 3, capConn 4]
        [(0, capConn 4)], some LogLevel.warn) ∧
    some LogLevel.warn ≠ some LogLevel.critical := by
  exact ⟨by decide, by decide, by decide, by decide, by decide, by decide,
    by decide, by decide⟩

/-- Claim C7 amended: for a pool whose size target is at least 1 (with
target 0 the strict reduction in `push` raises `IndexError` from
`available.pop(0)`), `push` of a fresh connection never fails; it logs
nothing while the tracked count stays within the size target, exactly
one warning when the count exceeds the target without exceeding twice
the target, and exactly one critical message only when the count
exceeds twice the target — so with `pool_size=2` the first critical
message appears at the fifth tracked connection, not the fourth. -/
theorem push_capacity_logging (now : Int) (c : Conn) (st : PoolState)
    (hsize : (1 : Int) ≤ st.size) (hc : c ∉ st.all) :
    (∃ st2 log, ConnectionPool.push now c st = some (st2, log) ∧
      (log = none ↔ (st2.all.length : Int) ≤ st.size) ∧
      (log = some LogLevel.warn ↔ (st.size < (st2.all.length : Int) ∧
        (st2.all.length : Int) ≤ 2 * st.size)) ∧
      (log = some LogLevel.critical ↔ 2 * st.size < (st2.all.length : Int))) ∧
    ConnectionPool.push 0 (capConn 5)
        (capPool [capConn 1, capConn 2, capConn 3, capConn 4]
          [(0, capConn 4)]) =
      some (capPool [capConn 1, capConn 2, capConn 3, capConn 4, capConn 5]
        [(0, capConn 4), (0, capConn 5)], some LogLevel.critical) := by
  constructor
  · rw [ConnectionPool.push, if_neg hc]
    cases hred : ConnectionPool.reduceSize now true st with
    | none =>
        have := ConnectionPool.reduceSize_isSome now true st (by simp; omega)
        rw [hred] at this
        cases this
    | some res =>
        obtain ⟨st1, rel⟩ := res
        refine ⟨_, _, rfl, ?_, ?_, ?_⟩ <;>
          simp only [List.length_append, List.length_singleton] <;>
          by_cases h1 : ((st1.all.length + 1 : Nat) : Int) > st.size
        · rw [if_pos h1]
          by_cases h2 : ((st1.all.length + 1 : Nat) : Int) > 2 * st.size <;>
            [rw [if_pos h2]; rw [if_neg h2]] <;> simp <;> omega
        · rw [if_neg h1]
          simp
          omega
        · rw [if_pos h1]
          by_cases h2 : ((st1.all.length + 1 : Nat) : Int) > 2 * st.size <;>
            [rw [if_pos h2]; rw [if_neg h2]] <;> simp <;> omega
        · rw [if_neg h1]
          simp
          omega
        · rw [if_pos h1]
          by_cases h2 : ((st1.all.length + 1 : Nat) : Int) > 2 * st.size <;>
            [rw [if_pos h2]; rw [if_neg h2]] <;> simp <;> omega
        · rw [if_neg h1]
          simp
          omega
  · decide

/-- Witness for claim C7 amended: pushing a fresh connection into the
reachable one-entry pool `warmPoolA` (size target 5) succeeds without
logging. -/
theorem push_capacity_logging_witness :
    (1 : Int) ≤ warmPoolA.size ∧ (⟨2, 50⟩ : Conn) ∉ warmPoolA.all ∧
    ∃ st2 log, ConnectionPool.push 10 (⟨2, 50⟩ : Conn) warmPoolA =
        some (st2, log) ∧
      (log = none ↔ (st2.all.length : Int) ≤ warmPoolA.size) ∧
      (log = some LogLevel.warn ↔ (warmPoolA.size < (st2.all.length : Int) ∧
        (st2.all.length : Int) ≤ 2 * warmPoolA.size)) ∧
      (log = some LogLevel.critical ↔
        2 * warmPoolA.size < (st2.all.length : Int)) :=
  ⟨by decide, by decide,
    (push_capacity_logging 10 ⟨2, 50⟩ warmPoolA (by decide) (by decide)).1⟩

theorem ConnectionPool.push_init (now : Int) (c : Conn) (s t : Int)
    (hs : (1 : Int) ≤ s) :
    ConnectionPool.push now c (ConnectionPool.init s t) =
      some ({ size := s, timeout := t, all := [c],
              available := [(now, c)] },
        if (1 : Int) > s then
          some (if (1 : Int) > 2 * s then LogLevel.critical
            else LogLevel.warn)
        else none) := by
  have h1 : ConnectionPool.reduceSize now true (ConnectionPool.init s t) =
      some (ConnectionPool.init s t, []) := by
    rw [ConnectionPool.reduceSize]
    simp only [ConnectionPool.init]
    rw [ConnectionPool.reduceLoop, if_neg (by omega)]
  rw [ConnectionPool.push, h1]
  rw [if_neg (show c ∉ (ConnectionPool.init s t).all by
    simp [ConnectionPool.init])]
  rfl

theorem KeyedConnectionPool.lookup_setPool (key : Nat) (p : PoolState) :
    ∀ (l : List (Nat × PoolState)),
      (KeyedConnectionPool.setPool key p l).lookup key = some p := by
  intro l
  induction l with
  | nil => simp [KeyedConnectionPool.setPool, List.lookup]
  | cons kq rest ih =>
      obtain ⟨k, q⟩ := kq
      rw [KeyedConnectionPool.setPool]
      by_cases hk : k = key
      · rw [if_pos hk]
        simp [List.lookup]
      · rw [if_neg hk]
        have hne : (key == k) = false :=
          beq_eq_false_iff_ne.mpr (fun h => hk h.symm)
        simp [List.lookup, hne]
        exact ih

/-- Claim C9: `KeyedConnectionPool.pop(key)` on a key with no sub-pool
returns `None`, raises nothing and leaves the pool family untouched;
only `push(c, key)` creates the sub-pool for a new key — a fresh
`ConnectionPool(self.size, self.timeout)` that then holds exactly the
pushed connection. -/
theorem keyed_pop_missing_key (key : Nat) (st : KeyedPoolState) (now : Int)
    (c : Conn) (hmiss : st.pools.lookup key = none)
    (hsize : (1 : Int) ≤ st.size) :
    KeyedConnectionPool.pop key st = some (none, st) ∧
    ∃ st2 log, KeyedConnectionPool.push now c key st = some (st2, log) ∧
      st2.pools.lookup key =
        some { size := st.size, timeout := st.timeout, all := [c],
               available := [(now, c)] } := by
  constructor
  · rw [KeyedConnectionPool.pop, hmiss]
  · rw [KeyedConnectionPool.push, hmiss]
    simp only
    rw [ConnectionPool.push_init now c st.size st.timeout hsize]
    refine ⟨_, _, rfl, ?_⟩
    simp only
    exact KeyedConnectionPool.lookup_setPool key _ st.pools

/-- Witness for claim C9: an empty keyed pool of size 3; popping the
missing key 0 returns `None` unchanged, and pushing under key 0
creates the sub-pool holding the pushed connection. -/
theorem keyed_pop_missing_key_witness :
    (KeyedConnectionPool.init 3 9).pools.lookup 0 = none ∧
    (1 : Int) ≤ (KeyedConnectionPool.init 3 9).size ∧
    KeyedConnectionPool.pop 0 (KeyedConnectionPool.init 3 9) =
      some (none, KeyedConnectionPool.init 3 9) ∧
    ∃ st2 log,
      KeyedConnectionPool.push 7 (⟨1, 0⟩ : Conn) 0
          (KeyedConnectionPool.init 3 9) = some (st2, log) ∧
      st2.pools.lookup 0 =
        some { size := 3, timeout := 9, all := [(⟨1, 0⟩ : Conn)],
               available := [(7, ⟨1, 0⟩)] } := by
  have h := keyed_pop_missing_key 0 (KeyedConnectionPool.init 3 9) 7 ⟨1, 0⟩
    (by decide) (by decide)
  exact ⟨by decide, by decide, h.1, h.2⟩
